import Mathlib

/-!
Verification development for the RRG (Relative Rotation Graph) dashboard
(`src/app.py`).

The program is a small pandas/streamlit pipeline.  We shallow-embed the
numeric core over an explicit IEEE-754-style value type `F α`
(`nan` / signed `inf` / finite value), because the code's behaviour on a
zero or missing benchmark price hinges on the distinction between NaN and
infinity that plain `Option` cannot express.  Finite payloads are exact
(`ℚ` for the indicator engine, `ℝ` for the normalizer, whose standard
deviation needs a square root); this is the usual exact-arithmetic reading
of the floating-point source.

Embedded functions:
* `calculate_rrg_components_improved` (app.py lines 34-45): the indicator
  engine.  `pandas.rolling(window=n).apply(f)` has `min_periods = n`, so a
  window containing fewer than `n` non-NaN observations yields NaN; in the
  embedding this emerges from NaN-propagation of the `F`-arithmetic inside
  the window function, which agrees with pandas here because every window
  passed to the function has exactly `n` entries.
* `normalize_data` (app.py lines 48-49): pandas `mean`/`std` skip NaN and
  `std` uses the sample (ddof = 1) convention, so a single defined value
  gives std NaN and an empty series gives mean NaN; both fall out of the
  `F`-arithmetic below.
* `create_rrg_plot` (app.py lines 52-83): `iloc[-k:]` keeps the last
  `min k len` entries; `iloc[-1]` on an empty series raises `IndexError`,
  modelled by an `Option` result.
* `main`'s validation and ticker parsing (app.py lines 86-138).
-/

set_option maxRecDepth 1000000

attribute [local semireducible] Rat.add Rat.mul Rat.inv Rat.sub

/-- A floating-point value as the pandas pipeline sees it: NaN, a signed
infinity, or a finite (exact) number. -/
inductive F (α : Type) where
  | nan : F α
  | inf (neg : Bool) : F α
  | fin (val : α) : F α
deriving DecidableEq

namespace F

variable {α : Type} [LinearOrderedField α]

/-- Whether the value is the NaN marker. -/
def isNan : F α → Bool
  | nan => true
  | _ => false

/-- Whether the value is finite. -/
def isFin : F α → Bool
  | fin _ => true
  | _ => false

/-- Whether the value is finite and strictly positive. -/
def isFinPos : F α → Bool
  | fin v => decide (0 < v)
  | _ => false

/-- IEEE-754 addition on `F` (signed zeros collapsed, which the pipeline
never distinguishes). -/
def add : F α → F α → F α
  | nan, _ => nan
  | _, nan => nan
  | inf s, inf t => if s = t then inf s else nan
  | inf s, fin _ => inf s
  | fin _, inf t => inf t
  | fin a, fin b => fin (a + b)

/-- IEEE-754 subtraction on `F`. -/
def sub : F α → F α → F α
  | nan, _ => nan
  | _, nan => nan
  | inf s, inf t => if s = t then nan else inf s
  | inf s, fin _ => inf s
  | fin _, inf t => inf (!t)
  | fin a, fin b => fin (a - b)

/-- IEEE-754 multiplication on `F`. -/
def mul : F α → F α → F α
  | nan, _ => nan
  | _, nan => nan
  | inf s, inf t => inf (xor s t)
  | inf s, fin b => if b = 0 then nan else inf (xor s (decide (b < 0)))
  | fin a, inf t => if a = 0 then nan else inf (xor t (decide (a < 0)))
  | fin a, fin b => fin (a * b)

/-- IEEE-754 division on `F`: `x/0` is a signed infinity for finite
nonzero `x`, and `0/0` is NaN — exactly what numpy does elementwise. -/
def div : F α → F α → F α
  | nan, _ => nan
  | _, nan => nan
  | inf _, inf _ => nan
  | fin _, inf _ => fin 0
  | inf s, fin b => inf (xor s (decide (b < 0)))
  | fin a, fin b =>
      if b = 0 then (if a = 0 then nan else inf (decide (a < 0))) else fin (a / b)

end F

/-- Sum of a list of `F`-values, as `np.sum` folds it; NaN and signed
infinities propagate through `F.add`. -/
def fsum {α : Type} [LinearOrderedField α] (l : List (F α)) : F α :=
  l.foldr F.add (F.fin 0)

/-- The raw relative-strength ratio `rs = data.div(benchmark, axis=0)` of
app.py line 35, per ticker column: elementwise division of the equity
price series by the benchmark series on the shared date axis. -/
def rrg_rs (data benchmark : List (F ℚ)) : List (F ℚ) :=
  List.zipWith F.div data benchmark

/-- The weight vector `np.arange(1, length + 1)` of app.py lines 38/41/44,
as rationals. -/
def arange1 (length : ℕ) : List ℚ :=
  (List.range length).map (fun i => ((i + 1 : ℕ) : ℚ))

/-- The rolling-window lambda of app.py lines 38/41/44:
`np.sum(x * np.arange(1, length + 1)) / np.sum(np.arange(1, length + 1))`. -/
def wmaWindow (length : ℕ) (x : List (F ℚ)) : F ℚ :=
  F.div (fsum (List.zipWith F.mul x ((arange1 length).map F.fin)))
    (F.fin (arange1 length).sum)

/-- Model of `Series.rolling(window=length, center=False).apply(f)`: entry `t` is
NaN until a full trailing window exists, and otherwise `f` applied to the
`length` trailing values ending at `t`.  (pandas' `min_periods = length`
NaN-masking of windows containing NaN coincides with the NaN-propagation
of the `F`-arithmetic window functions used below.) -/
def rollingApply (length : ℕ) (f : List (F ℚ) → F ℚ) (xs : List (F ℚ)) :
    List (F ℚ) :=
  (List.range xs.length).map (fun t =>
    if t + 1 < length then F.nan
    else f ((xs.drop (t + 1 - length)).take length))

/-- The indicator engine of app.py lines 34-45, for one ticker column:
double linearly-weighted smoothing producing (RS-Ratio, RS-Momentum). -/
def calculate_rrg_components_improved (data benchmark : List (F ℚ))
    (length : ℕ) : List (F ℚ) × List (F ℚ) :=
  let rs := rrg_rs data benchmark
  let wma_rs := rollingApply length (wmaWindow length) rs
  let rs_ratio_list :=
    (rollingApply length (wmaWindow length) (List.zipWith F.div rs wma_rs)).map
      (fun x => F.mul x (F.fin 100))
  let rs_momentum :=
    (List.zipWith F.div rs_ratio_list
        (rollingApply length (wmaWindow length) rs_ratio_list)).map
      (fun x => F.mul x (F.fin 100))
  (rs_ratio_list, rs_momentum)

/-- The spec's wording of the first-pass smoothing (§4.2 step 2): the
`i`-th-oldest point of the window has weight `i` (1-based), and the output
is the weighted sum divided by the total weight `n(n+1)/2`.  Written from
the spec's words, to be compared with `wmaWindow` from the source. -/
def specLWMAwindow (length : ℕ) (w : List (F ℚ)) : F ℚ :=
  F.div (fsum ((List.range length).map (fun i =>
      F.mul (F.fin ((i + 1 : ℕ) : ℚ)) (w.getD i F.nan))))
    (F.fin ((length : ℚ) * ((length : ℚ) + 1) / 2))

/-- The reference indicator definition assembled from the spec's words
(§4.2 steps 1-4): raw ratio, first-pass LWMA, RS-Ratio as the LWMA of
ratio/first-pass scaled by 100, RS-Momentum as RS-Ratio over its own LWMA
scaled by 100. -/
def rrg_reference (data benchmark : List (F ℚ)) (length : ℕ) :
    List (F ℚ) × List (F ℚ) :=
  let ratioList := List.zipWith F.div data benchmark
  let smoothed := rollingApply length (specLWMAwindow length) ratioList
  let rsRatioList :=
    (rollingApply length (specLWMAwindow length)
        (List.zipWith F.div ratioList smoothed)).map (fun x => F.mul x (F.fin 100))
  let rsMomentumList :=
    (List.zipWith F.div rsRatioList
        (rollingApply length (specLWMAwindow length) rsRatioList)).map
      (fun x => F.mul x (F.fin 100))
  (rsRatioList, rsMomentumList)

/-- The defined (non-NaN) observations of a series, which pandas'
`skipna = True` statistics operate on. -/
def definedVals {α : Type} [LinearOrderedField α] (xs : List (F α)) :
    List (F α) :=
  xs.filter (fun x => !x.isNan)

/-- Model of `Series.mean()`: sum of the defined values over their count (NaN on an
empty count, since `0/0` is NaN in `F`). -/
def seriesMean {α : Type} [LinearOrderedField α] (xs : List (F α)) : F α :=
  F.div (fsum (definedVals xs)) (F.fin ((definedVals xs).length : α))

/-- The sample variance underlying `Series.std()` (ddof = 1): squared
deviations from the mean over `count - 1`; `count ≤ 1` yields NaN via
`F`-division by zero of a zero numerator. -/
def seriesVar {α : Type} [LinearOrderedField α] (xs : List (F α)) : F α :=
  F.div
    (fsum ((definedVals xs).map (fun x =>
      F.mul (F.sub x (seriesMean xs)) (F.sub x (seriesMean xs)))))
    (F.fin (((definedVals xs).length - 1 : ℕ) : α))

/-- Square root on `F ℝ`, as numpy computes it: NaN for NaN or negative
arguments, `+∞` for `+∞`. -/
noncomputable def Fsqrt : F ℝ → F ℝ
  | F.nan => F.nan
  | F.inf b => if b then F.nan else F.inf false
  | F.fin v => if v < 0 then F.nan else F.fin (Real.sqrt v)

/-- Model of `Series.std()`: square root of the ddof-1 sample variance. -/
noncomputable def seriesStd (xs : List (F ℝ)) : F ℝ :=
  Fsqrt (seriesVar xs)

/-- The normalizer of app.py lines 48-49:
`(data - data.mean()) / data.std()`, elementwise over one series. -/
noncomputable def normalize_data (xs : List (F ℝ)) : List (F ℝ) :=
  xs.map (fun x => F.div (F.sub x (seriesMean xs)) (seriesStd xs))

/-- Python's `series.iloc[-k:]` for `k ≥ 1`: the last `min k len` entries
(`len - k` is truncated ℕ-subtraction, so an oversized `k` keeps
everything). -/
def pySliceLast {β : Type} (xs : List β) (k : ℕ) : List β :=
  xs.drop (xs.length - k)

/-- The renderable figure assembled by `create_rrg_plot` (app.py lines
52-83): the trail line trace, the current-position marker, and the
ticker label; the quadrant reference lines are fixed styling. -/
structure RRGFig where
  trailX : List (F ℚ)
  trailY : List (F ℚ)
  markerX : F ℚ
  markerY : F ℚ
  title : List Char
deriving DecidableEq

/-- The plot builder of app.py lines 52-83.  The trail uses
`iloc[-trail_length * 5:]` of each normalized series, and the marker uses
`iloc[-1]`, which raises `IndexError` on an empty series — modelled by
`none`. -/
def create_rrg_plot (normalized_rs_ratio_vals normalized_rs_momentum_vals : List (F ℚ))
    (ticker : List Char) (trail_length : ℕ) : Option RRGFig :=
  match normalized_rs_ratio_vals.getLast?, normalized_rs_momentum_vals.getLast? with
  | some mx, some my =>
      some { trailX := pySliceLast normalized_rs_ratio_vals (trail_length * 5)
             trailY := pySliceLast normalized_rs_momentum_vals (trail_length * 5)
             markerX := mx
             markerY := my
             title := ticker }
  | _, _ => none

/-- Python's `str.split('\n')` on a string modelled as a character list:
separator occurrences delimit fields, and the empty string splits to a
single empty field. -/
def splitNL : List Char → List (List Char)
  | [] => [[]]
  | c :: cs =>
      if c = '\n' then [] :: splitNL cs
      else
        match splitNL cs with
        | r :: rs => (c :: r) :: rs
        | [] => [[c]]

/-- The ASCII whitespace characters stripped by Python's `str.strip()`. -/
def pyIsSpace (c : Char) : Bool :=
  c = ' ' || c = '\t' || c = '\n' || c = '\r' || c = '\x0B' || c = '\x0C'

/-- Python's `str.strip()`: drop whitespace from both ends. -/
def pyStrip (s : List Char) : List Char :=
  ((s.dropWhile pyIsSpace).reverse.dropWhile pyIsSpace).reverse

/-- The ticker-list parsing of app.py line 116:
`[ticker.strip() for ticker in equity_input.split('\n') if ticker.strip()]`. -/
def parseTickers (equity_input : List Char) : List (List Char) :=
  (splitNL equity_input).filterMap (fun t =>
    if pyStrip t = [] then none else some (pyStrip t))

/-- The error message of app.py line 134. -/
def msgEndDate : String := "Error: End date must be after start date."

/-- The error message of app.py line 136. -/
def msgNoTicker : String := "Error: Please enter at least one equity ticker."

/-- The error message of app.py line 138. -/
def msgNoBench : String := "Error: Please enter a benchmark index ticker."

/-- What one interaction of `main` (app.py lines 118-138) renders: the
charts (one per parsed equity ticker, in input order), the validation
error messages shown, and whether a data fetch was driven. -/
structure RenderOutcome where
  charts : List (List Char)
  errors : List String
  fetched : Bool
deriving DecidableEq

/-- The validation-and-render dispatch of `main` (app.py lines 118-138),
with dates abstracted to integers (Python `date` objects are totally
ordered).  On the valid branch the pipeline runs and one chart per parsed
ticker is laid out; otherwise each violated condition contributes its
error message and nothing is rendered or fetched. -/
def mainRender (start_date end_date : ℤ) (equity_input benchmark_index : List Char) :
    RenderOutcome :=
  let equity := parseTickers equity_input
  if start_date < end_date ∧ equity ≠ [] ∧ benchmark_index ≠ [] then
    { charts := equity, errors := [], fetched := true }
  else
    { charts := []
      errors :=
        (if start_date ≥ end_date then [msgEndDate] else []) ++
        (if equity = [] then [msgNoTicker] else []) ++
        (if benchmark_index = [] then [msgNoBench] else [])
      fetched := false }

/-- Comparison of two `F`-values that only holds between finite values:
`finLt a b` means both are finite and `a < b`. -/
def F.finLt {α : Type} [LinearOrderedField α] : F α → F α → Bool
  | F.fin a, F.fin b => decide (a < b)
  | _, _ => false

/-- Boolean check that consecutive entries of a series are finite and
strictly decreasing. -/
def strictDecFin : List (F ℚ) → Bool
  | a :: b :: t => F.finLt b a && strictDecFin (b :: t)
  | _ => true

/-- Warm-up shape of a series: NaN strictly before index `k` and a
positive finite value from index `k` on. -/
def NanBeforeFinPosFrom (k : ℕ) (xs : List (F ℚ)) : Prop :=
  ∀ i, i < xs.length →
    (i < k → xs.getD i F.nan = F.nan) ∧
    (k ≤ i → (xs.getD i F.nan).isFinPos = true)

/-- Four-point constant price table: `2 × window_length` valid points for
window length 2. -/
def c2data : List (F ℚ) := List.replicate 4 (F.fin 1)

/-- A five-point strictly positive price series. -/
def c2wdata : List (F ℚ) := (List.range 5).map (fun k => F.fin ((k + 1 : ℕ) : ℚ))

/-- A five-point constant benchmark. -/
def c2wbench : List (F ℚ) := List.replicate 5 (F.fin 1)

/-- Ten points of normalized history, for the oversized-trail scenario. -/
def c8series : List (F ℚ) := List.replicate 10 (F.fin 1)

/-- The spec §8 synthetic price series for ticker A: 40 days of
`[100, 101, ..., 139]`. -/
def c9data : List (F ℚ) := (List.range 40).map (fun k => F.fin ((100 + k : ℕ) : ℚ))

/-- The spec §8 flat benchmark: `[100] × 40`. -/
def c9bench : List (F ℚ) := List.replicate 40 (F.fin 100)

/-- The RS-Ratio series the engine computes on the spec §8 synthetic
input with window length 14. -/
def c9ratioSeries : List (F ℚ) := (calculate_rrg_components_improved c9data c9bench 14).1

/-- A three-point series with sample variance 4, used to instantiate the
normalizer theorems. -/
def normSample : List (F ℝ) := [F.fin 0, F.fin 2, F.fin 4]

theorem rrg_rs_getD (data benchmark : List (F ℚ)) (i : ℕ)
    (hd : i < data.length) (hb : i < benchmark.length) :
    (rrg_rs data benchmark).getD i F.nan =
      F.div (data.getD i F.nan) (benchmark.getD i F.nan) := by
  have hz : i < (rrg_rs data benchmark).length := by
    simp only [rrg_rs, List.length_zipWith]
    omega
  rw [List.getD_eq_getElem _ _ hz, List.getD_eq_getElem _ _ hd,
    List.getD_eq_getElem _ _ hb]
  simp [rrg_rs]

/-- C3 (amended): at a date where the benchmark price is undefined the raw
ratio is NaN; at a date where the benchmark price is zero the raw ratio is
NaN only when the equity price is also zero, and otherwise it is a signed
infinity (not NaN); no arithmetic exception is raised (the embedded
division is total). -/
theorem rrg_rs_degenerate_benchmark (data benchmark : List (F ℚ)) (i : ℕ)
    (hd : i < data.length) (hb : i < benchmark.length) :
    (benchmark.getD i F.nan = F.nan →
      (rrg_rs data benchmark).getD i F.nan = F.nan) ∧
    (benchmark.getD i F.nan = F.fin 0 → data.getD i F.nan = F.fin 0 →
      (rrg_rs data benchmark).getD i F.nan = F.nan) ∧
    (∀ q : ℚ, q ≠ 0 → benchmark.getD i F.nan = F.fin 0 →
      data.getD i F.nan = F.fin q →
      (rrg_rs data benchmark).getD i F.nan = F.inf (decide (q < 0))) := by
  rw [rrg_rs_getD data benchmark i hd hb]
  refine ⟨fun h => ?_, fun hb0 hd0 => ?_, fun q hq hb0 hdq => ?_⟩
  · rw [h]
    cases data.getD i F.nan <;> rfl
  · rw [hb0, hd0]
    simp [F.div]
  · rw [hb0, hdq]
    simp [F.div, hq]

/-- C3 counterexample: with an equity price of 100 and a benchmark price
of 0, the raw ratio computed by the engine is positive infinity, not the
NaN marker the claim asserts. -/
theorem rrg_rs_zero_benchmark_counterexample :
    (rrg_rs [F.fin 100] [F.fin 0]).getD 0 F.nan = F.inf false ∧
      F.inf false ≠ (F.nan : F ℚ) := by
  decide

/-- Witness for `rrg_rs_degenerate_benchmark` at a concrete input. -/
theorem rrg_rs_degenerate_benchmark_witness :
    (rrg_rs [F.fin (100 : ℚ)] [F.fin 0]).getD 0 F.nan =
      F.inf (decide ((100 : ℚ) < 0)) :=
  (rrg_rs_degenerate_benchmark [F.fin 100] [F.fin 0] 0 (by decide)
    (by decide)).2.2 100 (by norm_num) (by decide) (by decide)

theorem arange1_sum_eq (L : ℕ) :
    (arange1 L).sum = (L : ℚ) * ((L : ℚ) + 1) / 2 := by
  induction L with
  | zero => simp [arange1]
  | succ n ih =>
      have hsp : arange1 (n + 1) = arange1 n ++ [((n + 1 : ℕ) : ℚ)] := by
        simp [arange1, List.range_succ]
      rw [hsp, List.sum_append, ih, List.sum_singleton]
      push_cast
      ring

theorem F.mul_comm {α : Type} [LinearOrderedField α] (a b : F α) :
    F.mul a b = F.mul b a := by
  cases a <;> cases b <;> simp [F.mul, Bool.xor_comm] <;> ring

theorem rollingApply_congr (L : ℕ) (f g : List (F ℚ) → F ℚ)
    (h : ∀ w, w.length = L → f w = g w) (xs : List (F ℚ)) :
    rollingApply L f xs = rollingApply L g xs := by
  unfold rollingApply
  refine List.map_congr_left (fun t ht => ?_)
  rw [List.mem_range] at ht
  by_cases hc : t + 1 < L
  · simp [hc]
  · have hw : ((xs.drop (t + 1 - L)).take L).length = L := by
      rw [List.length_take, List.length_drop]
      omega
    simp [hc, h _ hw]

theorem wmaWindow_eq_specLWMA (L : ℕ) (w : List (F ℚ)) (hw : w.length = L) :
    wmaWindow L w = specLWMAwindow L w := by
  have hnum : List.zipWith F.mul w ((arange1 L).map F.fin) =
      (List.range L).map (fun i =>
        F.mul (F.fin ((i + 1 : ℕ) : ℚ)) (w.getD i F.nan)) := by
    apply List.ext_getElem
    · simp [arange1, hw]
    · intro i h1 h2
      have hiL : i < L := by simpa using h2
      have hiw : i < w.length := by omega
      simp only [List.getElem_zipWith, List.getElem_map, List.getElem_range,
        arange1, List.getD_eq_getElem _ _ hiw]
      exact F.mul_comm _ _
  unfold wmaWindow specLWMAwindow
  rw [hnum, arange1_sum_eq]

/-- C1: the indicator engine coincides with the reference definition
assembled from the spec's words — raw equity/benchmark ratio, first-pass
linearly-weighted moving average with weight `i` for the `i`-th-oldest
window point, RS-Ratio as the same smoothing of ratio/first-pass scaled
by 100, and RS-Momentum as RS-Ratio over its own smoothing scaled by
100 — for every input table and window length `≥ 1`. -/
theorem calculate_rrg_matches_spec_reference (data benchmark : List (F ℚ))
    (length : ℕ) (hL : 1 ≤ length) :
    calculate_rrg_components_improved data benchmark length =
      rrg_reference data benchmark length := by
  have hroll : ∀ xs : List (F ℚ),
      rollingApply length (wmaWindow length) xs =
        rollingApply length (specLWMAwindow length) xs :=
    fun xs => rollingApply_congr length _ _
      (fun w hw => wmaWindow_eq_specLWMA length w hw) xs
  simp only [calculate_rrg_components_improved, rrg_reference, rrg_rs, hroll]

/-- Witness for `calculate_rrg_matches_spec_reference` at a concrete
input and window length. -/
theorem calculate_rrg_matches_spec_reference_witness :
    1 ≤ 2 ∧
      calculate_rrg_components_improved c2wdata c2wbench 2 =
        rrg_reference c2wdata c2wbench 2 :=
  ⟨by norm_num,
    calculate_rrg_matches_spec_reference c2wdata c2wbench 2 (by norm_num)⟩

/-- C9 counterexample: on the spec §8 synthetic input (prices 100..139,
flat benchmark 100, window 14) the engine's RS-Ratio at the first two
defined indices 26 and 27 moves strictly DOWN, so the series is not
strictly monotonically increasing after the warm-up period as claimed. -/
theorem c9_rs_ratio_not_increasing :
    F.finLt (c9ratioSeries.getD 27 F.nan) (c9ratioSeries.getD 26 F.nan) = true ∧
      F.finLt (c9ratioSeries.getD 26 F.nan) (c9ratioSeries.getD 27 F.nan) = false := by
  decide

/-- C9 (amended): on the spec §8 synthetic input the RS-Ratio series is
NaN through the warm-up (indices 0-25) and finite from index 26 on, and
it is strictly monotonically DECREASING at every defined index after the
warm-up period (the linear price rise makes the ratio-to-lagging-average
shrink toward 100 from above). -/
theorem c9_rs_ratio_strictly_decreasing :
    c9ratioSeries.length = 40 ∧
      (c9ratioSeries.take 26).all F.isNan = true ∧
      (c9ratioSeries.drop 26).all F.isFin = true ∧
      strictDecFin (c9ratioSeries.drop 26) = true := by
  decide

/-- C8 counterexample: with an empty normalized history the plot builder
fails (the `iloc[-1]` marker lookup raises `IndexError`, modelled `none`)
instead of clipping and building the figure, refuting the claim's
"builds the figure without error" for trail length 52 at this input. -/
theorem create_rrg_plot_empty_counterexample :
    create_rrg_plot [] [] ['T'] 52 = none := rfl

/-- C8 (amended): for every trail length 1-52 and every normalized pair
with at least one point of history, the plot builder succeeds; the trail
is the suffix of the last `trail_length * 5` points of each series,
clipped to the whole history when `trail_length * 5` exceeds it, and the
marker is the most recent point. -/
theorem create_rrg_plot_clips (nr nm : List (F ℚ)) (ticker : List Char)
    (t : ℕ) (ht1 : 1 ≤ t) (ht2 : t ≤ 52) (hnr : nr ≠ []) (hnm : nm ≠ []) :
    ∃ fig, create_rrg_plot nr nm ticker t = some fig ∧
      fig.trailX.length = min (t * 5) nr.length ∧
      fig.trailY.length = min (t * 5) nm.length ∧
      List.IsSuffix fig.trailX nr ∧
      List.IsSuffix fig.trailY nm ∧
      (nr.length ≤ t * 5 → fig.trailX = nr) ∧
      (nm.length ≤ t * 5 → fig.trailY = nm) ∧
      fig.markerX = nr.getLast hnr ∧
      fig.markerY = nm.getLast hnm := by
  have h1 : nr.getLast? = some (nr.getLast hnr) := List.getLast?_eq_getLast nr hnr
  have h2 : nm.getLast? = some (nm.getLast hnm) := List.getLast?_eq_getLast nm hnm
  refine ⟨{ trailX := pySliceLast nr (t * 5), trailY := pySliceLast nm (t * 5),
            markerX := nr.getLast hnr, markerY := nm.getLast hnm,
            title := ticker }, ?_, ?_, ?_, ?_, ?_, ?_, ?_, rfl, rfl⟩
  · unfold create_rrg_plot
    rw [h1, h2]
  · show (pySliceLast nr (t * 5)).length = _
    rw [pySliceLast, List.length_drop]
    omega
  · show (pySliceLast nm (t * 5)).length = _
    rw [pySliceLast, List.length_drop]
    omega
  · exact List.drop_suffix _ _
  · exact List.drop_suffix _ _
  · intro h
    show pySliceLast nr (t * 5) = nr
    rw [pySliceLast, Nat.sub_eq_zero_of_le h, List.drop_zero]
  · intro h
    show pySliceLast nm (t * 5) = nm
    rw [pySliceLast, Nat.sub_eq_zero_of_le h, List.drop_zero]

/-- Witness for `create_rrg_plot_clips`: the spec §8 oversized-trail
scenario — trail length 52 with only 10 points of history renders all 10
points. -/
theorem create_rrg_plot_clips_witness :
    ∃ fig, create_rrg_plot c8series c8series ['A'] 52 = some fig ∧
      fig.trailX = c8series := by
  obtain ⟨fig, heq, -, -, -, -, hclip, -, -, -⟩ :=
    create_rrg_plot_clips c8series c8series ['A'] 52 (by norm_num)
      (by norm_num) (by decide) (by decide)
  exact ⟨fig, heq, hclip (by decide)⟩

/-- C10: the ticker parser splits the input on newlines, strips each line
and keeps exactly the nonempty results; consequently an input consisting
solely of blank or whitespace-only lines parses to the empty ticker list,
and the dashboard then performs no fetch, renders no charts, and shows
the empty-ticker-list error message. -/
theorem parseTickers_blank_lines (equity_input : List Char) :
    parseTickers equity_input =
      ((splitNL equity_input).map pyStrip).filter (fun t => t ≠ []) ∧
    ((∀ t ∈ splitNL equity_input, pyStrip t = []) →
      parseTickers equity_input = [] ∧
      ∀ (s e : ℤ) (benchmark : List Char),
        (mainRender s e equity_input benchmark).fetched = false ∧
        (mainRender s e equity_input benchmark).charts = [] ∧
        msgNoTicker ∈ (mainRender s e equity_input benchmark).errors) := by
  have hgen : ∀ l : List (List Char),
      l.filterMap (fun u => if pyStrip u = [] then none else some (pyStrip u)) =
        (l.map pyStrip).filter (fun u => u ≠ []) := by
    intro l
    induction l with
    | nil => rfl
    | cons a l ih =>
        by_cases ha : pyStrip a = [] <;>
          simp [List.filterMap_cons, List.filter_cons, ha, ih]
  have hchar : parseTickers equity_input =
      ((splitNL equity_input).map pyStrip).filter (fun u => u ≠ []) := by
    rw [parseTickers, hgen]
  refine ⟨hchar, fun h => ?_⟩
  have hempty : parseTickers equity_input = [] := by
    rw [hchar, List.filter_eq_nil_iff]
    intro u hu
    obtain ⟨w, hw, rfl⟩ := List.mem_map.1 hu
    simp [h w hw]
  refine ⟨hempty, fun s e benchmark => ?_⟩
  have hcond : ¬(s < e ∧ parseTickers equity_input ≠ [] ∧ benchmark ≠ []) :=
    fun hh => hh.2.1 hempty
  simp only [mainRender, if_neg hcond]
  refine ⟨by trivial, by trivial, ?_⟩
  simp [hempty]

/-- Witness for `parseTickers_blank_lines`: a ticker box holding only
blank and whitespace-only lines yields the empty-ticker error, no fetch,
no charts. -/
theorem parseTickers_blank_lines_witness :
    parseTickers ("  \n\t \n".toList) = [] ∧
      (mainRender 0 1 ("  \n\t \n".toList) ("^CNX100".toList)).fetched = false ∧
      (mainRender 0 1 ("  \n\t \n".toList) ("^CNX100".toList)).charts = [] ∧
      msgNoTicker ∈ (mainRender 0 1 ("  \n\t \n".toList) ("^CNX100".toList)).errors := by
  obtain ⟨-, h2⟩ := parseTickers_blank_lines ("  \n\t \n".toList)
  obtain ⟨hp, hm⟩ := h2 (by decide)
  obtain ⟨hf, hc, he⟩ := hm 0 1 ("^CNX100".toList)
  exact ⟨hp, hf, hc, he⟩

/-- C4: the dashboard fetches and renders exactly when the start date
strictly precedes the end date, the parsed ticker list is nonempty and
the benchmark is nonempty; a valid input lays out one chart per parsed
ticker with no errors; on any violation nothing is rendered and the error
list is exactly the concatenation of the specific message for each
violated condition, so each message appears iff its condition is violated
and at least one message is shown. -/
theorem mainRender_validation (s e : ℤ) (equity_input benchmark_index : List Char) :
    ((mainRender s e equity_input benchmark_index).fetched = true ↔
      (s < e ∧ parseTickers equity_input ≠ [] ∧ benchmark_index ≠ [])) ∧
    ((s < e ∧ parseTickers equity_input ≠ [] ∧ benchmark_index ≠ []) →
      (mainRender s e equity_input benchmark_index).charts =
          parseTickers equity_input ∧
        (mainRender s e equity_input benchmark_index).errors = []) ∧
    (¬(s < e ∧ parseTickers equity_input ≠ [] ∧ benchmark_index ≠ []) →
      (mainRender s e equity_input benchmark_index).charts = [] ∧
      (mainRender s e equity_input benchmark_index).errors =
        (if s ≥ e then [msgEndDate] else []) ++
          (if parseTickers equity_input = [] then [msgNoTicker] else []) ++
          (if benchmark_index = [] then [msgNoBench] else []) ∧
      (msgEndDate ∈ (mainRender s e equity_input benchmark_index).errors ↔ e ≤ s) ∧
      (msgNoTicker ∈ (mainRender s e equity_input benchmark_index).errors ↔
        parseTickers equity_input = []) ∧
      (msgNoBench ∈ (mainRender s e equity_input benchmark_index).errors ↔
        benchmark_index = []) ∧
      (mainRender s e equity_input benchmark_index).errors ≠ []) := by
  have hm : ∀ (c : Prop) [Decidable c] (x y : String),
      (x ∈ if c then [y] else []) ↔ (c ∧ x = y) := by
    intro c _ x y
    split <;> simp [*]
  have d1 : msgEndDate ≠ msgNoTicker := by decide
  have d2 : msgEndDate ≠ msgNoBench := by decide
  have d3 : msgNoTicker ≠ msgNoBench := by decide
  by_cases hvalid : s < e ∧ parseTickers equity_input ≠ [] ∧ benchmark_index ≠ []
  · refine ⟨?_, fun _ => ⟨?_, ?_⟩, fun h => absurd hvalid h⟩ <;>
      simp [mainRender, hvalid.1, hvalid.2.1, hvalid.2.2]
  · simp only [mainRender, if_neg hvalid]
    refine ⟨by simp [hvalid], fun h => absurd h hvalid,
      fun _ => ⟨by trivial, by trivial, ?_, ?_, ?_, ?_⟩⟩
    · simp [hm, d1, d2, Ne.symm d1, Ne.symm d2]
    · simp [hm, d3, Ne.symm d1, Ne.symm d3]
    · simp [hm, Ne.symm d2, Ne.symm d3]
    · rcases not_and_or.mp hvalid with h1 | h23
      · have hle : s ≥ e := by omega
        rw [if_pos hle]
        intro hnil
        simp at hnil
      · rcases not_and_or.mp h23 with h2 | h3
        · have h2' : parseTickers equity_input = [] := by
            by_contra hc
            exact h2 hc
          intro hnil
          rw [h2'] at hnil
          simp at hnil
        · have h3' : benchmark_index = [] := by
            by_contra hc
            exact h3 hc
          intro hnil
          rw [if_pos h3'] at hnil
          simp at hnil

/-- Witness for `mainRender_validation`: the spec §8 scenario — tickers
"AAA" and "BBB", benchmark "CCC", start date after end date — shows
exactly the end-date message and renders nothing. -/
theorem mainRender_validation_witness :
    (mainRender 1 0 ("AAA\nBBB".toList) ("CCC".toList)).charts = [] ∧
      (mainRender 1 0 ("AAA\nBBB".toList) ("CCC".toList)).errors = [msgEndDate] := by
  obtain ⟨-, -, h⟩ := mainRender_validation 1 0 ("AAA\nBBB".toList) ("CCC".toList)
  obtain ⟨hc, he, -, -, -, -⟩ := h (by decide)
  refine ⟨hc, ?_⟩
  rw [he]
  decide

theorem F.isFinPos_iff {α : Type} [LinearOrderedField α] (x : F α) :
    x.isFinPos = true ↔ ∃ v, x = F.fin v ∧ 0 < v := by
  cases x <;> simp [F.isFinPos]

theorem F.isFin_of_isFinPos {α : Type} [LinearOrderedField α] (x : F α)
    (h : x.isFinPos = true) : x.isFin = true := by
  cases x <;> simp_all [F.isFinPos, F.isFin]

theorem F.add_nan_right {α : Type} [LinearOrderedField α] (x : F α) :
    F.add x F.nan = F.nan := by
  cases x <;> rfl

theorem F.div_finPos {α : Type} [LinearOrderedField α] (a b : F α)
    (ha : a.isFinPos = true) (hb : b.isFinPos = true) :
    (F.div a b).isFinPos = true := by
  obtain ⟨p, rfl, hp⟩ := (F.isFinPos_iff a).1 ha
  obtain ⟨q, rfl, hq⟩ := (F.isFinPos_iff b).1 hb
  have hq0 : q ≠ 0 := ne_of_gt hq
  have hpq : 0 < p / q := div_pos hp hq
  simp [F.div, hq0, F.isFinPos, hpq]

theorem F.mul_finPos {α : Type} [LinearOrderedField α] (a b : F α)
    (ha : a.isFinPos = true) (hb : b.isFinPos = true) :
    (F.mul a b).isFinPos = true := by
  obtain ⟨p, rfl, hp⟩ := (F.isFinPos_iff a).1 ha
  obtain ⟨q, rfl, hq⟩ := (F.isFinPos_iff b).1 hb
  have hpq : 0 < p * q := mul_pos hp hq
  simp [F.mul, F.isFinPos, hpq]

theorem F.nan_add {α : Type} [LinearOrderedField α] (x : F α) :
    F.add F.nan x = F.nan := by
  cases x <;> rfl

theorem F.nan_mul {α : Type} [LinearOrderedField α] (x : F α) :
    F.mul F.nan x = F.nan := by
  cases x <;> rfl

theorem F.nan_div {α : Type} [LinearOrderedField α] (x : F α) :
    F.div F.nan x = F.nan := by
  cases x <;> rfl

theorem F.div_nan_right {α : Type} [LinearOrderedField α] (x : F α) :
    F.div x F.nan = F.nan := by
  cases x <;> rfl

theorem fsum_nan_of_mem {α : Type} [LinearOrderedField α] (l : List (F α))
    (h : F.nan ∈ l) : fsum l = F.nan := by
  induction l with
  | nil => cases h
  | cons a l ih =>
      rcases List.mem_cons.1 h with rfl | hm
      · show F.add F.nan (fsum l) = F.nan
        exact F.nan_add _
      · show F.add a (fsum l) = F.nan
        rw [ih hm, F.add_nan_right]

theorem fsum_finPos {α : Type} [LinearOrderedField α] (l : List (F α))
    (h : ∀ x ∈ l, x.isFinPos = true) :
    ∃ s, fsum l = F.fin s ∧ 0 ≤ s ∧ (l ≠ [] → 0 < s) := by
  induction l with
  | nil => exact ⟨0, rfl, le_refl 0, fun hh => absurd rfl hh⟩
  | cons a l ih =>
      obtain ⟨s, hs, hs0, -⟩ := ih (fun x hx => h x (List.mem_cons_of_mem a hx))
      obtain ⟨v, rfl, hv⟩ := (F.isFinPos_iff a).1 (h a (List.mem_cons_self a l))
      refine ⟨v + s, ?_, by linarith, fun _ => by linarith⟩
      show F.add (F.fin v) (fsum l) = F.fin (v + s)
      rw [hs]
      rfl

theorem rollingApply_length (L : ℕ) (f : List (F ℚ) → F ℚ) (xs : List (F ℚ)) :
    (rollingApply L f xs).length = xs.length := by
  simp [rollingApply]

theorem rollingApply_getD (L : ℕ) (f : List (F ℚ) → F ℚ) (xs : List (F ℚ))
    (i : ℕ) (h : i < xs.length) :
    (rollingApply L f xs).getD i F.nan =
      if i + 1 < L then F.nan else f ((xs.drop (i + 1 - L)).take L) := by
  have h' : i < (rollingApply L f xs).length := by
    rw [rollingApply_length]
    exact h
  rw [List.getD_eq_getElem _ _ h']
  simp [rollingApply]

theorem window_length (xs : List (F ℚ)) (L i : ℕ) (hL : L ≤ i + 1)
    (h : i < xs.length) : ((xs.drop (i + 1 - L)).take L).length = L := by
  rw [List.length_take, List.length_drop]
  omega

theorem window_getD (xs : List (F ℚ)) (L i j : ℕ) (hL : L ≤ i + 1)
    (h : i < xs.length) (hj : j < L) :
    ((xs.drop (i + 1 - L)).take L).getD j F.nan =
      xs.getD (i + 1 - L + j) F.nan := by
  have h1 : j < ((xs.drop (i + 1 - L)).take L).length := by
    rw [window_length xs L i hL h]
    exact hj
  have h2 : i + 1 - L + j < xs.length := by omega
  rw [List.getD_eq_getElem _ _ h1, List.getD_eq_getElem _ _ h2]
  simp [List.getElem_take, List.getElem_drop]

theorem wmaWindow_nan_mem (L : ℕ) (w : List (F ℚ)) (hw : w.length = L)
    (h : F.nan ∈ w) : wmaWindow L w = F.nan := by
  obtain ⟨j, hj, hget⟩ := List.getElem_of_mem h
  have hjL : j < L := by omega
  have hlen : (List.zipWith F.mul w ((arange1 L).map F.fin)).length = L := by
    simp [List.length_zipWith, arange1, hw]
  have hmem : F.nan ∈ List.zipWith F.mul w ((arange1 L).map F.fin) := by
    have hjz : j < (List.zipWith F.mul w ((arange1 L).map F.fin)).length := by
      omega
    have hval : (List.zipWith F.mul w ((arange1 L).map F.fin))[j] =
        F.nan := by
      rw [List.getElem_zipWith, hget]
      exact F.nan_mul _
    exact hval ▸ List.getElem_mem _
  show F.div _ _ = F.nan
  rw [fsum_nan_of_mem _ hmem]
  rfl

theorem wmaWindow_finPos (L : ℕ) (hL : 1 ≤ L) (w : List (F ℚ))
    (hw : w.length = L) (h : ∀ x ∈ w, x.isFinPos = true) :
    (wmaWindow L w).isFinPos = true := by
  have hlen : (List.zipWith F.mul w ((arange1 L).map F.fin)).length = L := by
    simp [List.length_zipWith, arange1, hw]
  have hall : ∀ x ∈ List.zipWith F.mul w ((arange1 L).map F.fin),
      x.isFinPos = true := by
    intro x hx
    obtain ⟨j, hj, rfl⟩ := List.getElem_of_mem hx
    rw [List.getElem_zipWith]
    apply F.mul_finPos
    · exact h _ (List.getElem_mem _)
    · have hjL : j < L := by omega
      simp only [List.getElem_map, List.getElem_range, arange1]
      have hpos : (0 : ℚ) < (j : ℚ) + 1 := by positivity
      simp [F.isFinPos, hpos]
  obtain ⟨s, hs, -, hpos⟩ := fsum_finPos _ hall
  have hne : List.zipWith F.mul w ((arange1 L).map F.fin) ≠ [] := by
    intro hnil
    rw [hnil] at hlen
    simp at hlen
    omega
  have hspos := hpos hne
  have hden : 0 < (arange1 L).sum := by
    rw [arange1_sum_eq]
    have hL1 : (1 : ℚ) ≤ (L : ℚ) := by exact_mod_cast hL
    nlinarith
  show (F.div _ _).isFinPos = true
  rw [hs]
  apply F.div_finPos
  · simpa [F.isFinPos] using hspos
  · simpa [F.isFinPos] using hden

theorem all_finPos_warmup (xs : List (F ℚ)) (h : xs.all F.isFinPos = true) :
    NanBeforeFinPosFrom 0 xs := by
  intro i hi
  refine ⟨fun hik => absurd hik (by omega), fun _ => ?_⟩
  rw [List.getD_eq_getElem _ _ hi]
  exact List.all_eq_true.1 h _ (List.getElem_mem _)

theorem rollingApply_warmup (L : ℕ) (hL : 1 ≤ L) (k : ℕ) (xs : List (F ℚ))
    (hxs : NanBeforeFinPosFrom k xs) :
    NanBeforeFinPosFrom (k + (L - 1)) (rollingApply L (wmaWindow L) xs) := by
  intro i hi
  rw [rollingApply_length] at hi
  rw [rollingApply_getD L _ xs i hi]
  constructor
  · intro hik
    by_cases hc : i + 1 < L
    · rw [if_pos hc]
    · rw [if_neg hc]
      apply wmaWindow_nan_mem L _ (window_length xs L i (by omega) hi)
      have h0 : ((xs.drop (i + 1 - L)).take L).getD 0 F.nan =
          xs.getD (i + 1 - L) F.nan := by
        simpa using window_getD xs L i 0 (by omega) hi (by omega)
      have hidx : i + 1 - L < k := by omega
      have hlt : i + 1 - L < xs.length := by omega
      have hnan : xs.getD (i + 1 - L) F.nan = F.nan := (hxs _ hlt).1 hidx
      have hwl : ((xs.drop (i + 1 - L)).take L).length = L :=
        window_length xs L i (by omega) hi
      have hz0 : 0 < ((xs.drop (i + 1 - L)).take L).length := by omega
      have h0' : ((xs.drop (i + 1 - L)).take L)[0] = F.nan := by
        rw [← List.getD_eq_getElem _ F.nan hz0]
        rw [h0, hnan]
      exact h0' ▸ List.getElem_mem _
  · intro hki
    have hc : ¬(i + 1 < L) := by omega
    rw [if_neg hc]
    apply wmaWindow_finPos L hL _ (window_length xs L i (by omega) hi)
    intro x hx
    obtain ⟨j, hj, rfl⟩ := List.getElem_of_mem hx
    have hwl : ((xs.drop (i + 1 - L)).take L).length = L :=
      window_length xs L i (by omega) hi
    have hjL : j < L := by omega
    have hidx : i + 1 - L + j < xs.length := by omega
    have hconv : ((xs.drop (i + 1 - L)).take L)[j] =
        xs.getD (i + 1 - L + j) F.nan := by
      rw [← List.getD_eq_getElem _ F.nan hj,
        window_getD xs L i j (by omega) hi hjL]
    rw [hconv]
    exact (hxs _ hidx).2 (by omega)

theorem zipWith_div_warmup (k₁ k₂ : ℕ) (hk : k₁ ≤ k₂) (a b : List (F ℚ))
    (hlen : b.length = a.length) (ha : NanBeforeFinPosFrom k₁ a)
    (hb : NanBeforeFinPosFrom k₂ b) :
    NanBeforeFinPosFrom k₂ (List.zipWith F.div a b) := by
  intro i hi
  rw [List.length_zipWith] at hi
  have hia : i < a.length := by omega
  have hib : i < b.length := by omega
  have hget : (List.zipWith F.div a b).getD i F.nan =
      F.div (a.getD i F.nan) (b.getD i F.nan) := by
    rw [List.getD_eq_getElem _ _ (by rw [List.length_zipWith]; omega),
      List.getD_eq_getElem _ _ hia, List.getD_eq_getElem _ _ hib,
      List.getElem_zipWith]
  rw [hget]
  constructor
  · intro hik
    by_cases h1 : i < k₁
    · rw [(ha _ hia).1 h1]
      exact F.nan_div _
    · obtain ⟨v, hv, -⟩ := (F.isFinPos_iff _).1 ((ha _ hia).2 (by omega))
      rw [hv, (hb _ hib).1 hik]
      exact F.div_nan_right _
  · intro hik
    exact F.div_finPos _ _ ((ha _ hia).2 (by omega)) ((hb _ hib).2 hik)

theorem map_mul100_warmup (k : ℕ) (xs : List (F ℚ))
    (h : NanBeforeFinPosFrom k xs) :
    NanBeforeFinPosFrom k (xs.map (fun x => F.mul x (F.fin 100))) := by
  intro i hi
  rw [List.length_map] at hi
  have hget : (xs.map (fun x => F.mul x (F.fin 100))).getD i F.nan =
      F.mul (xs.getD i F.nan) (F.fin 100) := by
    rw [List.getD_eq_getElem _ _ (by simpa using hi),
      List.getD_eq_getElem _ _ hi, List.getElem_map]
  rw [hget]
  constructor
  · intro hik
    rw [(h _ hi).1 hik]
    rfl
  · intro hik
    apply F.mul_finPos _ _ ((h _ hi).2 hik)
    have hpos : (0 : ℚ) < 100 := by norm_num
    simp [F.isFinPos, hpos]

/-- C2 counterexample: a constant table of four positive points — exactly
`2 × window_length` valid points for window length 2 — still has
RS-Momentum equal to NaN at index `2 × (window_length − 1) = 2`, because
the third nested smoothing pass delays RS-Momentum by a further
`window_length − 1` entries. -/
theorem rs_momentum_warmup_counterexample :
    c2data.length = 2 * 2 ∧ c2data.all F.isFinPos = true ∧
      (calculate_rrg_components_improved c2data c2data 2).2.getD 2 F.nan =
        F.nan := by
  decide

/-- C2 (amended): for every table of positive prices over a positive
benchmark of the same length and window length `L ≥ 1`, both output
series keep the input length; RS-Ratio is NaN strictly before index
`2 × (L − 1)` and defined (finite) from it on, while RS-Momentum is NaN
strictly before index `3 × (L − 1)` and defined from it on. -/
theorem calculate_rrg_warmup_characterization (data benchmark : List (F ℚ))
    (L : ℕ) (hL : 1 ≤ L) (hlen : benchmark.length = data.length)
    (hd : data.all F.isFinPos = true) (hb : benchmark.all F.isFinPos = true) :
    ((calculate_rrg_components_improved data benchmark L).1.length =
        data.length ∧
      (calculate_rrg_components_improved data benchmark L).2.length =
        data.length) ∧
    (∀ i, i < data.length →
      (i < 2 * (L - 1) →
        (calculate_rrg_components_improved data benchmark L).1.getD i F.nan =
          F.nan) ∧
      (2 * (L - 1) ≤ i →
        ((calculate_rrg_components_improved data benchmark L).1.getD i
            F.nan).isFin = true)) ∧
    (∀ i, i < data.length →
      (i < 3 * (L - 1) →
        (calculate_rrg_components_improved data benchmark L).2.getD i F.nan =
          F.nan) ∧
      (3 * (L - 1) ≤ i →
        ((calculate_rrg_components_improved data benchmark L).2.getD i
            F.nan).isFin = true)) := by
  set rs := List.zipWith F.div data benchmark with hrs_def
  set wma_rs := rollingApply L (wmaWindow L) rs with hwma_def
  set ratio2 := List.zipWith F.div rs wma_rs with hratio2_def
  set rsR := (rollingApply L (wmaWindow L) ratio2).map
    (fun x => F.mul x (F.fin 100)) with hrsR_def
  set wma2 := rollingApply L (wmaWindow L) rsR with hwma2_def
  set rsM := (List.zipWith F.div rsR wma2).map
    (fun x => F.mul x (F.fin 100)) with hrsM_def
  have hfst : (calculate_rrg_components_improved data benchmark L).1 = rsR := rfl
  have hsnd : (calculate_rrg_components_improved data benchmark L).2 = rsM := rfl
  have lrs : rs.length = data.length := by
    simp [hrs_def, List.length_zipWith, hlen]
  have lwma : wma_rs.length = data.length := by
    rw [hwma_def, rollingApply_length, lrs]
  have lratio2 : ratio2.length = data.length := by
    simp [hratio2_def, List.length_zipWith, lrs, lwma]
  have lrsR : rsR.length = data.length := by
    simp [hrsR_def, rollingApply_length, lratio2]
  have lwma2 : wma2.length = data.length := by
    rw [hwma2_def, rollingApply_length, lrsR]
  have lrsM : rsM.length = data.length := by
    simp [hrsM_def, List.length_zipWith, lrsR, lwma2]
  have h0 : NanBeforeFinPosFrom 0 rs :=
    zipWith_div_warmup 0 0 (by omega) data benchmark hlen
      (all_finPos_warmup data hd) (all_finPos_warmup benchmark hb)
  have h1 : NanBeforeFinPosFrom (L - 1) wma_rs := by
    have hh := rollingApply_warmup L hL 0 rs h0
    rwa [Nat.zero_add] at hh
  have h2 : NanBeforeFinPosFrom (L - 1) ratio2 :=
    zipWith_div_warmup 0 (L - 1) (by omega) rs wma_rs (by rw [lwma, lrs])
      h0 h1
  have h3 : NanBeforeFinPosFrom ((L - 1) + (L - 1))
      (rollingApply L (wmaWindow L) ratio2) :=
    rollingApply_warmup L hL (L - 1) ratio2 h2
  have h4 : NanBeforeFinPosFrom ((L - 1) + (L - 1)) rsR :=
    map_mul100_warmup _ _ h3
  have h5 : NanBeforeFinPosFrom ((L - 1) + (L - 1) + (L - 1)) wma2 :=
    rollingApply_warmup L hL _ rsR h4
  have h6 : NanBeforeFinPosFrom ((L - 1) + (L - 1) + (L - 1))
      (List.zipWith F.div rsR wma2) :=
    zipWith_div_warmup ((L - 1) + (L - 1)) ((L - 1) + (L - 1) + (L - 1))
      (by omega) rsR wma2 (by rw [lwma2, lrsR]) h4 h5
  have h7 : NanBeforeFinPosFrom ((L - 1) + (L - 1) + (L - 1)) rsM :=
    map_mul100_warmup _ _ h6
  refine ⟨⟨by rw [hfst, lrsR], by rw [hsnd, lrsM]⟩, fun i hi => ?_, fun i hi => ?_⟩
  · rw [hfst]
    have hi' : i < rsR.length := by rw [lrsR]; exact hi
    obtain ⟨ha, hp⟩ := h4 i hi'
    exact ⟨fun hik => ha (by omega),
      fun hik => F.isFin_of_isFinPos _ (hp (by omega))⟩
  · rw [hsnd]
    have hi' : i < rsM.length := by rw [lrsM]; exact hi
    obtain ⟨ha, hp⟩ := h7 i hi'
    exact ⟨fun hik => ha (by omega),
      fun hik => F.isFin_of_isFinPos _ (hp (by omega))⟩

/-- Witness for `calculate_rrg_warmup_characterization` on a concrete
five-point positive table with window length 2: RS-Momentum is NaN at
index 2 and defined at index 3 = 3 × (L − 1). -/
theorem calculate_rrg_warmup_characterization_witness :
    (calculate_rrg_components_improved c2wdata c2wbench 2).2.getD 2 F.nan =
        F.nan ∧
      ((calculate_rrg_components_improved c2wdata c2wbench 2).2.getD 3
          F.nan).isFin = true := by
  obtain ⟨-, -, hM⟩ := calculate_rrg_warmup_characterization c2wdata c2wbench 2
    (by norm_num) (by decide) (by decide) (by decide)
  exact ⟨(hM 2 (by decide)).1 (by norm_num), (hM 3 (by decide)).2 (by norm_num)⟩

theorem F.add_eq_fin {α : Type} [LinearOrderedField α] {a b : F α} {s : α}
    (h : F.add a b = F.fin s) : (∃ x, a = F.fin x) ∧ (∃ y, b = F.fin y) := by
  cases a <;> cases b <;> simp only [F.add] at h <;>
    (try split at h) <;> simp_all

theorem F.sub_eq_fin {α : Type} [LinearOrderedField α] {a b : F α} {s : α}
    (h : F.sub a b = F.fin s) : (∃ x, a = F.fin x) ∧ (∃ y, b = F.fin y) := by
  cases a <;> cases b <;> simp only [F.sub] at h <;>
    (try split at h) <;> simp_all

theorem F.mul_self_eq_fin {α : Type} [LinearOrderedField α] {a : F α} {s : α}
    (h : F.mul a a = F.fin s) : ∃ x, a = F.fin x := by
  cases a with
  | nan => simp [F.mul] at h
  | inf t => simp [F.mul] at h
  | fin x => exact ⟨x, rfl⟩

theorem F.div_fin_eq_fin {α : Type} [LinearOrderedField α] {a : F α} {c q : α}
    (h : F.div a (F.fin c) = F.fin q) :
    c ≠ 0 ∧ ∃ x, a = F.fin x ∧ q = x / c := by
  cases a with
  | nan => rw [F.nan_div] at h; cases h
  | inf s => simp [F.div] at h
  | fin x =>
      by_cases hc : c = 0
      · subst hc
        by_cases hx : x = 0 <;> simp [F.div, hx] at h
      · refine ⟨hc, x, rfl, ?_⟩
        simp [F.div, hc] at h
        exact h.symm

theorem fsum_fin_mem {α : Type} [LinearOrderedField α] {l : List (F α)} {s : α}
    (h : fsum l = F.fin s) : ∀ x ∈ l, ∃ q, x = F.fin q := by
  induction l generalizing s with
  | nil => intro x hx; cases hx
  | cons a l ih =>
      intro x hx
      have h' : F.add a (fsum l) = F.fin s := h
      obtain ⟨⟨xa, hxa⟩, ⟨ys, hys⟩⟩ := F.add_eq_fin h'
      rcases List.mem_cons.1 hx with rfl | hm
      · exact ⟨xa, hxa⟩
      · exact ih hys x hm

theorem exists_map_fin {α : Type} [LinearOrderedField α] {l : List (F α)}
    (h : ∀ x ∈ l, ∃ q, x = F.fin q) : ∃ rs : List α, l = rs.map F.fin := by
  induction l with
  | nil => exact ⟨[], rfl⟩
  | cons a l ih =>
      obtain ⟨q, rfl⟩ := h a (List.mem_cons_self a l)
      obtain ⟨rs, hrs⟩ := ih (fun x hx => h x (List.mem_cons_of_mem _ hx))
      exact ⟨q :: rs, by rw [hrs]; rfl⟩

theorem fsum_map_fin {α : Type} [LinearOrderedField α] (l : List α) :
    fsum (l.map F.fin) = F.fin l.sum := by
  induction l with
  | nil => rfl
  | cons a l ih =>
      show F.add (F.fin a) (fsum (l.map F.fin)) = F.fin (a :: l).sum
      rw [ih, List.sum_cons]
      rfl

theorem list_sum_sub_mul (l : List ℝ) (a b : ℝ) :
    (l.map (fun x => (x - a) * b)).sum = (l.sum - l.length * a) * b := by
  induction l with
  | nil => simp
  | cons x l ih =>
      simp only [List.map_cons, List.sum_cons, List.length_cons, ih]
      push_cast
      ring

theorem list_sum_sq_mul (l : List ℝ) (a b : ℝ) :
    (l.map (fun x => ((x - a) * b) * ((x - a) * b))).sum =
      (l.map (fun x => (x - a) * (x - a))).sum * (b * b) := by
  induction l with
  | nil => simp
  | cons x l ih =>
      simp only [List.map_cons, List.sum_cons, ih]
      ring

theorem fsum_map_fin_comp {α : Type} [LinearOrderedField α] (f : α → α)
    (l : List α) :
    fsum (l.map (fun x => F.fin (f x))) = F.fin ((l.map f).sum) := by
  induction l with
  | nil => rfl
  | cons a l ih =>
      show F.add (F.fin (f a)) (fsum (l.map (fun x => F.fin (f x)))) = _
      rw [ih]
      show F.fin (f a + (l.map f).sum) = _
      simp

theorem definedVals_map_isNan_eq (g : F ℝ → F ℝ)
    (hg : ∀ x, (g x).isNan = x.isNan) (xs : List (F ℝ)) :
    definedVals (xs.map g) = (definedVals xs).map g := by
  unfold definedVals
  have hpred : ((fun x : F ℝ => !x.isNan) ∘ g) = (fun x : F ℝ => !x.isNan) := by
    funext x
    simp [Function.comp, hg]
  rw [List.filter_map, hpred]

theorem seriesMean_rep (xs : List (F ℝ)) (rs : List ℝ)
    (hD : definedVals xs = rs.map F.fin) (hn : 1 ≤ rs.length) :
    seriesMean xs = F.fin (rs.sum / rs.length) := by
  have hn0 : ((rs.length : ℝ)) ≠ 0 := Nat.cast_ne_zero.mpr (by omega)
  unfold seriesMean
  rw [hD, fsum_map_fin, List.length_map]
  simp [F.div, hn0]

theorem seriesVar_rep (xs : List (F ℝ)) (rs : List ℝ)
    (hD : definedVals xs = rs.map F.fin) (hn : 2 ≤ rs.length) :
    seriesVar xs = F.fin
      ((rs.map (fun x =>
          (x - rs.sum / rs.length) * (x - rs.sum / rs.length))).sum /
        ((rs.length - 1 : ℕ) : ℝ)) := by
  have hm := seriesMean_rep xs rs hD (by omega)
  have hn1 : (((rs.length - 1 : ℕ) : ℝ)) ≠ 0 := Nat.cast_ne_zero.mpr (by omega)
  unfold seriesVar
  simp only [hD, hm, List.length_map, List.map_map]
  have hcomp : ((fun y => F.mul (F.sub y (F.fin (rs.sum / (rs.length : ℝ))))
        (F.sub y (F.fin (rs.sum / (rs.length : ℝ))))) ∘ F.fin) =
      (fun x : ℝ =>
        F.fin ((x - rs.sum / rs.length) * (x - rs.sum / rs.length))) := by
    funext x
    simp [Function.comp, F.sub, F.mul]
  rw [hcomp, fsum_map_fin_comp]
  simp [F.div, hn1]

theorem seriesVar_fin_rep (xs : List (F ℝ)) (v : ℝ)
    (hv : seriesVar xs = F.fin v) :
    ∃ rs : List ℝ, definedVals xs = rs.map F.fin ∧ 2 ≤ rs.length := by
  unfold seriesVar at hv
  obtain ⟨hden, S, hS, -⟩ := F.div_fin_eq_fin hv
  have hn2 : 2 ≤ (definedVals xs).length := by
    by_contra hc
    push_neg at hc
    have hz : (definedVals xs).length - 1 = 0 := by omega
    rw [hz] at hden
    simp at hden
  have hall : ∀ x ∈ definedVals xs, ∃ q, x = F.fin q := by
    intro x hx
    have hsq : F.mul (F.sub x (seriesMean xs)) (F.sub x (seriesMean xs)) ∈
        (definedVals xs).map (fun y =>
          F.mul (F.sub y (seriesMean xs)) (F.sub y (seriesMean xs))) :=
      List.mem_map_of_mem _ hx
    obtain ⟨q, hq⟩ := fsum_fin_mem hS _ hsq
    obtain ⟨y, hy⟩ := F.mul_self_eq_fin hq
    obtain ⟨⟨xv, hxv⟩, -⟩ := F.sub_eq_fin hy
    exact ⟨xv, hxv⟩
  obtain ⟨rs, hrs⟩ := exists_map_fin hall
  refine ⟨rs, hrs, ?_⟩
  rw [hrs, List.length_map] at hn2
  exact hn2

theorem normalize_core (xs : List (F ℝ)) (v : ℝ)
    (hv : seriesVar xs = F.fin v) (hv0 : v ≠ 0) :
    ∃ (rs : List ℝ) (m s : ℝ),
      definedVals xs = rs.map F.fin ∧ 2 ≤ rs.length ∧
      seriesMean xs = F.fin m ∧ m = rs.sum / rs.length ∧
      0 < v ∧ seriesStd xs = F.fin s ∧ s = Real.sqrt v ∧ 0 < s ∧
      normalize_data xs =
        xs.map (fun x => F.div (F.sub x (F.fin m)) (F.fin s)) ∧
      seriesMean (normalize_data xs) = F.fin 0 ∧
      seriesVar (normalize_data xs) = F.fin 1 ∧
      seriesStd (normalize_data xs) = F.fin 1 := by
  obtain ⟨rs, hD, hn⟩ := seriesVar_fin_rep xs v hv
  have hm : seriesMean xs = F.fin (rs.sum / rs.length) :=
    seriesMean_rep xs rs hD (by omega)
  have hvar := seriesVar_rep xs rs hD hn
  rw [hv] at hvar
  have hveq : v =
      (rs.map (fun x =>
        (x - rs.sum / rs.length) * (x - rs.sum / rs.length))).sum /
        ((rs.length - 1 : ℕ) : ℝ) := by
    simpa using hvar
  have hS0 : 0 ≤ (rs.map (fun x =>
      (x - rs.sum / rs.length) * (x - rs.sum / rs.length))).sum := by
    apply List.sum_nonneg
    intro y hy
    obtain ⟨x, -, rfl⟩ := List.mem_map.1 hy
    exact mul_self_nonneg _
  have hn1pos : (0 : ℝ) < ((rs.length - 1 : ℕ) : ℝ) :=
    Nat.cast_pos.mpr (by omega)
  have hvpos : 0 < v :=
    lt_of_le_of_ne (hveq ▸ div_nonneg hS0 (le_of_lt hn1pos)) (Ne.symm hv0)
  have hspos : 0 < Real.sqrt v := Real.sqrt_pos.mpr hvpos
  have hs0 : Real.sqrt v ≠ 0 := ne_of_gt hspos
  have hstd : seriesStd xs = F.fin (Real.sqrt v) := by
    unfold seriesStd
    rw [hv]
    simp [Fsqrt, not_lt.mpr (le_of_lt hvpos)]
  have hnorm : normalize_data xs =
      xs.map (fun x => F.div (F.sub x (F.fin (rs.sum / rs.length)))
        (F.fin (Real.sqrt v))) := by
    simp only [normalize_data, hm, hstd]
  have hgnan : ∀ x : F ℝ,
      (F.div (F.sub x (F.fin (rs.sum / rs.length)))
        (F.fin (Real.sqrt v))).isNan = x.isNan := by
    intro x
    cases x with
    | nan => rfl
    | inf t => simp [F.sub, F.div, F.isNan]
    | fin q => simp [F.sub, F.div, hs0, F.isNan]
  have hDout : definedVals (normalize_data xs) =
      (rs.map (fun x => (x - rs.sum / rs.length) / Real.sqrt v)).map F.fin := by
    rw [hnorm, definedVals_map_isNan_eq _ hgnan, hD, List.map_map,
      List.map_map]
    congr 1
    funext x
    simp [Function.comp, F.sub, F.div, hs0]
  have hyslen : (rs.map (fun x =>
      (x - rs.sum / rs.length) / Real.sqrt v)).length = rs.length :=
    List.length_map _ _
  have hsum_ys : (rs.map (fun x =>
      (x - rs.sum / rs.length) / Real.sqrt v)).sum = 0 := by
    have hdm : (fun x : ℝ => (x - rs.sum / rs.length) / Real.sqrt v) =
        fun x => (x - rs.sum / rs.length) * (Real.sqrt v)⁻¹ := by
      funext x
      rw [div_eq_mul_inv]
    rw [hdm, list_sum_sub_mul]
    have hne : ((rs.length : ℝ)) ≠ 0 := Nat.cast_ne_zero.mpr (by omega)
    field_simp
  have hmean_out : seriesMean (normalize_data xs) = F.fin 0 := by
    have h := seriesMean_rep (normalize_data xs) _ hDout (by rw [hyslen]; omega)
    rw [hsum_ys] at h
    simpa using h
  have hvar_out := seriesVar_rep (normalize_data xs) _ hDout
    (by rw [hyslen]; omega)
  have hss : Real.sqrt v * Real.sqrt v = v := Real.mul_self_sqrt (le_of_lt hvpos)
  have hsq_ys : ((rs.map (fun x =>
        (x - rs.sum / rs.length) / Real.sqrt v)).map (fun y =>
          (y - (rs.map (fun x =>
            (x - rs.sum / rs.length) / Real.sqrt v)).sum /
            ((rs.map (fun x =>
              (x - rs.sum / rs.length) / Real.sqrt v)).length : ℝ)) *
          (y - (rs.map (fun x =>
            (x - rs.sum / rs.length) / Real.sqrt v)).sum /
            ((rs.map (fun x =>
              (x - rs.sum / rs.length) / Real.sqrt v)).length : ℝ)))).sum =
      ((rs.length - 1 : ℕ) : ℝ) := by
    simp only [hsum_ys, zero_div, sub_zero, List.map_map]
    have hcomp : ((fun y : ℝ => y * y) ∘
        fun x => (x - rs.sum / rs.length) / Real.sqrt v) =
        fun x => ((x - rs.sum / rs.length) * (Real.sqrt v)⁻¹) *
          ((x - rs.sum / rs.length) * (Real.sqrt v)⁻¹) := by
      funext x
      simp [Function.comp, div_eq_mul_inv]
    rw [hcomp, list_sum_sq_mul]
    have hinv : (Real.sqrt v)⁻¹ * (Real.sqrt v)⁻¹ = v⁻¹ := by
      rw [← mul_inv, hss]
    rw [hinv]
    have hSv : (rs.map (fun x =>
        (x - rs.sum / rs.length) * (x - rs.sum / rs.length))).sum =
        v * ((rs.length - 1 : ℕ) : ℝ) := by
      rw [hveq, div_mul_cancel₀ _ (ne_of_gt hn1pos)]
    rw [hSv, mul_right_comm, mul_inv_cancel₀ (ne_of_gt hvpos), one_mul]
  have hvar_out1 : seriesVar (normalize_data xs) = F.fin 1 := by
    rw [hvar_out, hsq_ys, hyslen]
    rw [div_self (ne_of_gt hn1pos)]
  have hstd_out : seriesStd (normalize_data xs) = F.fin 1 := by
    unfold seriesStd
    rw [hvar_out1]
    norm_num [Fsqrt]
  exact ⟨rs, rs.sum / rs.length, Real.sqrt v, hD, hn, hm, rfl, hvpos, hstd,
    rfl, hspos, hnorm, hmean_out, hvar_out1, hstd_out⟩

/-- C5: for a series whose sample variance over its defined values is
finite and nonzero, the normalizer maps each defined value `x` to
`(x − mean) / std` computed over the defined values only, keeps every
undefined entry undefined, and its output has mean exactly 0 and standard
deviation exactly 1 over the defined values (in exact arithmetic). -/
theorem normalize_data_spec (xs : List (F ℝ)) (v : ℝ)
    (hv : seriesVar xs = F.fin v) (hv0 : v ≠ 0) :
    ∃ m s : ℝ, seriesMean xs = F.fin m ∧ seriesStd xs = F.fin s ∧ 0 < s ∧
      (∀ i, i < xs.length →
        (xs.getD i F.nan = F.nan →
          (normalize_data xs).getD i F.nan = F.nan) ∧
        (∀ x : ℝ, xs.getD i F.nan = F.fin x →
          (normalize_data xs).getD i F.nan = F.fin ((x - m) / s))) ∧
      seriesMean (normalize_data xs) = F.fin 0 ∧
      seriesStd (normalize_data xs) = F.fin 1 := by
  obtain ⟨rs, m, s, -, -, hm, -, -, hstd, -, hspos, hnorm, hmean_out, -,
    hstd_out⟩ := normalize_core xs v hv hv0
  have hs0 : s ≠ 0 := ne_of_gt hspos
  refine ⟨m, s, hm, hstd, hspos, fun i hi => ?_, hmean_out, hstd_out⟩
  have hgd : (normalize_data xs).getD i F.nan =
      F.div (F.sub (xs.getD i F.nan) (F.fin m)) (F.fin s) := by
    rw [hnorm]
    rw [List.getD_eq_getElem _ _ (by simpa using hi),
      List.getD_eq_getElem _ _ hi, List.getElem_map]
  rw [hgd]
  constructor
  · intro h
    rw [h]
    rfl
  · intro x hx
    rw [hx]
    simp [F.sub, F.div, hs0]

theorem normSample_var : seriesVar normSample = F.fin 4 := by
  have hD : definedVals normSample = [(0 : ℝ), 2, 4].map F.fin := rfl
  have h := seriesVar_rep normSample [0, 2, 4] hD (by norm_num)
  rw [h]
  norm_num [F.fin.injEq]

/-- Witness for `normalize_data_spec` on a concrete three-point series
with variance 4. -/
theorem normalize_data_spec_witness :
    ∃ m s : ℝ, seriesMean normSample = F.fin m ∧
      seriesStd normSample = F.fin s ∧ 0 < s ∧
      (∀ i, i < normSample.length →
        (normSample.getD i F.nan = F.nan →
          (normalize_data normSample).getD i F.nan = F.nan) ∧
        (∀ x : ℝ, normSample.getD i F.nan = F.fin x →
          (normalize_data normSample).getD i F.nan = F.fin ((x - m) / s))) ∧
      seriesMean (normalize_data normSample) = F.fin 0 ∧
      seriesStd (normalize_data normSample) = F.fin 1 :=
  normalize_data_spec normSample 4 normSample_var (by norm_num)

/-- C6: normalizing an already-normalized series (one with finite nonzero
variance) returns the same series, since its mean and standard deviation
are exactly 0 and 1. -/
theorem normalize_data_idempotent (xs : List (F ℝ)) (v : ℝ)
    (hv : seriesVar xs = F.fin v) (hv0 : v ≠ 0) :
    normalize_data (normalize_data xs) = normalize_data xs := by
  obtain ⟨rs, m, s, -, -, -, -, -, -, -, -, -, hmean_out, -, hstd_out⟩ :=
    normalize_core xs v hv hv0
  show (normalize_data xs).map (fun y =>
      F.div (F.sub y (seriesMean (normalize_data xs)))
        (seriesStd (normalize_data xs))) = normalize_data xs
  simp only [hmean_out, hstd_out]
  have hid : ∀ y : F ℝ, F.div (F.sub y (F.fin (0 : ℝ))) (F.fin 1) = y := by
    intro y
    have h10 : ((1 : ℝ) < 0) = False := by norm_num
    cases y with
    | nan => rfl
    | inf t => simp [F.sub, F.div, h10]
    | fin q =>
        have h1 : (1 : ℝ) ≠ 0 := one_ne_zero
        simp [F.sub, F.div, h1]
  simp [hid]

/-- Witness for `normalize_data_idempotent` on the concrete three-point
series with variance 4. -/
theorem normalize_data_idempotent_witness :
    normalize_data (normalize_data normSample) = normalize_data normSample :=
  normalize_data_idempotent normSample 4 normSample_var (by norm_num)

/-- C7: the normalizer maps every constant series — any length and value,
hence in particular every series of zero standard deviation — to all-NaN
output (the `0/0` of a zero or NaN standard deviation) instead of raising
an arithmetic fault (the embedded operation is total). -/
theorem normalize_data_const_nan (n : ℕ) (c : ℝ) :
    normalize_data (List.replicate n (F.fin c)) = List.replicate n F.nan := by
  have hD : definedVals (List.replicate n (F.fin c)) =
      (List.replicate n c).map F.fin := by
    unfold definedVals
    rw [List.filter_replicate]
    simp [F.isNan]
  rcases n with _ | n'
  · rfl
  · have hn1 : 1 ≤ (List.replicate (n' + 1) c).length := by simp
    have hmean := seriesMean_rep _ _ hD hn1
    have hcast : (List.replicate (n' + 1) c).sum /
        (((List.replicate (n' + 1) c).length : ℕ) : ℝ) = c := by
      rw [List.sum_replicate, List.length_replicate, nsmul_eq_mul]
      have hne : ((n' + 1 : ℕ) : ℝ) ≠ 0 := Nat.cast_ne_zero.mpr (Nat.succ_ne_zero n')
      field_simp
    rw [hcast] at hmean
    have hstd : seriesStd (List.replicate (n' + 1) (F.fin c)) = F.nan ∨
        seriesStd (List.replicate (n' + 1) (F.fin c)) = F.fin 0 := by
      rcases n' with _ | n''
      · left
        unfold seriesStd seriesVar
        simp only [hD, hmean]
        norm_num [F.sub, F.mul, F.div, fsum, F.add, Fsqrt]
      · right
        have hlen2 : 2 ≤ (List.replicate (n'' + 1 + 1) c).length := by simp
        have hvar := seriesVar_rep _ _ hD hlen2
        simp only [hcast] at hvar
        simp only [List.map_replicate, sub_self, mul_zero,
          List.sum_replicate, smul_zero, zero_div] at hvar
        unfold seriesStd
        rw [hvar]
        norm_num [Fsqrt]
    unfold normalize_data
    rw [List.map_replicate]
    congr 1
    rw [hmean]
    rcases hstd with h | h
    · rw [h, F.div_nan_right]
    · have hsub : F.sub (F.fin c) (F.fin c) = F.fin 0 := by simp [F.sub]
      rw [h, hsub]
      simp [F.div]
